import Mathlib

/-!
Verification of the FASTA reading/writing module `fasta.py`
(repository AvirFrog/fasta-parser).

Text is modelled as `List Char`, file bytes as `List Nat`.  Each Lean
definition below is a direct translation of the corresponding Python
function; comments quote the relevant Python lines where the translation
is subtle.
-/

namespace Fasta

/-- Text is modelled as a list of characters. -/
abbrev Str := List Char

/-- Characters of a Lean string literal, for writing concrete inputs. -/
def chars (x : String) : Str := x.data

/-- The whitespace set of Python `str.strip()` / `str.split()` (CPython's
`Py_UNICODE_ISSPACE`): the ASCII whitespace `\t \n \x0b \x0c \r` and space,
the separator controls U+001C..U+001F, NEL U+0085, NBSP U+00A0, Ogham space
U+1680, the Unicode spaces U+2000..U+200A, the line and paragraph separators
U+2028/U+2029, narrow no-break space U+202F, medium mathematical space
U+205F and ideographic space U+3000 (Unicode categories Zs/Zl/Zp and
bidirectional classes WS/B/S). -/
def isSpace (c : Char) : Bool :=
  c == ' ' || c == '\t' || c == '\n' || c == '\x0b' || c == '\x0c' || c == '\r' ||
  c == '\x1c' || c == '\x1d' || c == '\x1e' || c == '\x1f' ||
  c == '\x85' || c == '\xa0' || c == '\u1680' ||
  (0x2000 ≤ c.toNat && c.toNat ≤ 0x200a) ||
  c == '\u2028' || c == '\u2029' || c == '\u202f' || c == '\u205f' || c == '\u3000'

/-- Python `str.lstrip()`. -/
def lstrip (s : Str) : Str := s.dropWhile isSpace

/-- Python `str.rstrip()`. -/
def rstrip (s : Str) : Str := (s.reverse.dropWhile isSpace).reverse

/-- Python `str.strip()`. -/
def strip (s : Str) : Str := rstrip (lstrip s)

/-- Split a character list at every newline; always returns at least one
(possibly empty) segment, like Python `str.split('\n')`. -/
def splitNl : Str → List Str
  | [] => [[]]
  | c :: rest =>
    match splitNl rest with
    | [] => [[]]
    | h :: t => if c = '\n' then [] :: h :: t else (c :: h) :: t

/-- The lines produced by iterating a Python text-mode file handle over the
given contents, with their trailing `'\n'` removed.  Iterating a file whose
contents end in `'\n'` does not produce a final empty line, hence the
`dropLast`.  (The parser below only ever strips lines or inspects them left
to right, so removing the terminators here is faithful.) -/
def pySplitLines (s : Str) : List Str :=
  let p := splitNl s
  if p.getLast? = some [] then p.dropLast else p

/-- Python `class Record`: a FASTA record (`id`, `seq`, `desc`).  `id` and `desc`
are `Option` because `parse` can construct a `Record` whose id is Python
`None` (content before the first header) and `desc` defaults to `None`. -/
structure Record where
  id : Option Str
  seq : Str
  desc : Option Str
deriving DecidableEq, Repr

/-- Python f-string interpolation of an optional string
(`f'>{self.id}'` renders `None` as the text `None`). -/
def optStr : Option Str → Str
  | none => chars "None"
  | some s => s

/-- Python `Record.description`:
`lst = [f'>{self.id}']; if self.desc: lst.append(f'{self.desc}');
return " ".join(lst)`.  `if self.desc:` is false for `None` and for the
empty string. -/
def Record.description (r : Record) : Str :=
  let base := '>' :: optStr r.id
  match r.desc with
  | some d => if d ≠ [] then base ++ ' ' :: d else base
  | none => base

/-- Fuel-driven worker for `chunks` (structural recursion so that the kernel
can evaluate it). -/
def chunksFuel : Nat → Nat → Str → List Str
  | 0, _, _ => []
  | fuel + 1, w, s =>
    if s = [] ∨ w = 0 then []
    else s.take w :: chunksFuel fuel w (s.drop w)

/-- The successive slices `seq[i:i+wrap]` for `i in range(0, len(seq), wrap)`
(used by `Record.format` when `wrap` is a positive integer). -/
def chunks (w : Nat) (s : Str) : List Str := chunksFuel s.length w s

/-- Python `Record.format(wrap)`: header line, then either one line per `wrap`-sized
slice of the sequence (`if wrap:`) or the whole sequence on one line.
`wrap` is modelled as `Nat`; `if wrap:` is `wrap ≠ 0`. -/
def Record.format (r : Record) (wrap : Nat) : Str :=
  r.description ++ ['\n'] ++
    (if wrap ≠ 0 then ((chunks wrap r.seq).map (fun c => c ++ ['\n'])).flatten
     else r.seq ++ ['\n'])

/-- Python `Record.format()` with the default argument `wrap=70`. -/
def Record.formatDefault (r : Record) : Str := r.format 70

/-- Python `Record.__str__`: `return self.format(wrap=70).rstrip()`. -/
def Record.str (r : Record) : Str := rstrip (r.format 70)

/-- Python `line.split()[0][1:]` for a line that starts with `'>'`: the first
whitespace-delimited token, with the leading `'>'` removed. -/
def headerId (line : Str) : Str :=
  (line.takeWhile (fun c => !isSpace c)).drop 1

/-- Python `line[len(seqid)+1:].strip()` for a header line. -/
def headerDesc (line : Str) : Str :=
  strip (line.drop ((headerId line).length + 1))

/-- The loop body of `parse`: state is `(seqid, desc, seq)` exactly as in the
Python generator; a `Record` is yielded on a header line when the buffer is
non-empty (`if seq:`) and once more at end of input. -/
def parseGo : Option Str → Option Str → List Str → List Str → List Record
  | sid, d, buf, [] =>
    if buf = [] then [] else [⟨sid, buf.flatten, d⟩]
  | sid, d, buf, line :: rest =>
    if line.head? = some '>' then
      (if buf = [] then [] else [⟨sid, buf.flatten, d⟩]) ++
        parseGo (some (headerId line)) (some (headerDesc line)) [] rest
    else
      parseGo sid d (buf ++ [strip line]) rest

/-- Python `parse`: iterate over the lines of the (decoded) file with initial state
`seqid = None`, `desc = None`, `seq = []`. -/
def parse (lines : List Str) : List Record := parseGo none none [] lines

/-- The strings returned by `get_compression_type`. -/
inductive Compression where
  | gz | bz2 | zip | zstandard | lz4 | plain
deriving DecidableEq, Repr

/-- The dict `d` of `get_compression_type`, in insertion order.  The first
three keys are Python *tuples of single bytes*, and
`bytes.startswith(tuple)` succeeds when the data starts with ANY member of
the tuple, so each entry here is the list of alternative prefixes tested for
that compression type. -/
def sigTable : List (List (List Nat) × Compression) :=
  [([[0x1f], [0x8b], [0x08]], .gz),
   ([[0x42], [0x5a], [0x68]], .bz2),
   ([[0x50], [0x4b], [0x03], [0x04]], .zip),
   ([[0x28, 0xb5, 0x2f, 0xfd]], .zstandard),
   ([[0x04, 0x22, 0x4d, 0x18]], .lz4)]

/-- Python `get_compression_type(filename)` applied to the file's bytes:
reads `file_start = fh.read(4)` and returns the value of the first dict
entry whose key matches `file_start.startswith(first_bytes)`, else
`'plain'`. -/
def get_compression_type (file : List Nat) : Compression :=
  let file_start := file.take 4
  match sigTable.find? (fun e => e.1.any (fun p => p.isPrefixOf file_start)) with
  | some e => e.2
  | none => .plain

/-- The printed form of a `Compression`, as interpolated into the
`ImportError` message. -/
def compressionName : Compression → Str
  | .gz => chars "gz"
  | .bz2 => chars "bz2"
  | .zip => chars "zip"
  | .zstandard => chars "zstandard"
  | .lz4 => chars "lz4"
  | .plain => chars "plain"

/-- The message of `ImportError(f'{compression_type} is required for: {filename}')`. -/
def importErrorMsg (k : Compression) (filename : Str) : Str :=
  compressionName k ++ chars " is required for: " ++ filename

/-- The openers that `get_open_func` can return. -/
inductive OpenFunc where
  | gzipOpen | bz2Open | plainOpen | zstandardOpen | lz4Open
deriving DecidableEq, Repr

/-- The ways `get_open_func` can raise: `open_funcs[compression_type]` with a
key that is not in the dict (a Python `KeyError` carrying the key), or the
explicit `ImportError` (carrying its message). -/
inductive OpenError where
  | keyError (k : Compression)
  | importError (msg : Str)
deriving DecidableEq, Repr

/-- Python `get_open_func(filename)` applied to the file's bytes.  The dict
`open_funcs` has keys `'gz'`, `'bz2'`, `'plain'`, `'zstandard'`, `'lz4'` —
there is NO `'zip'` key, so a file sniffed as zip hits a `KeyError`.  For
`'zstandard'`/`'lz4'` the stored value is `None` when the module is missing
(`HAS_ZSTANDARD`/`HAS_LZ4` false), and `func == None` raises the
`ImportError`. -/
def get_open_func (file : List Nat) (filename : Str)
    (HAS_ZSTANDARD HAS_LZ4 : Bool) : Except OpenError OpenFunc :=
  match get_compression_type file with
  | .gz => .ok .gzipOpen
  | .bz2 => .ok .bz2Open
  | .plain => .ok .plainOpen
  | .zip => .error (.keyError .zip)
  | .zstandard =>
    if HAS_ZSTANDARD then .ok .zstandardOpen
    else .error (.importError (importErrorMsg .zstandard filename))
  | .lz4 =>
    if HAS_LZ4 then .ok .lz4Open
    else .error (.importError (importErrorMsg .lz4 filename))

/-- Python `parse(filename)` as a whole: `get_open_func` runs before any line is
read, so an opener error yields no records at all; on success the records
come from the decoded text (`decodedLines` stands for the lines the returned
opener produces). -/
def parseResult (file : List Nat) (filename : Str)
    (HAS_ZSTANDARD HAS_LZ4 : Bool) (decodedLines : List Str) :
    Except OpenError (List Record) :=
  match get_open_func file filename HAS_ZSTANDARD HAS_LZ4 with
  | .error e => .error e
  | .ok _ => .ok (parse decodedLines)

/-- One assignment `m[k] = v` on a Python dict modelled as an ordered
association list: an existing key keeps its position and gets the new value,
a new key is appended. -/
def dictInsert (m : List (Option Str × Record)) (k : Option Str) (v : Record) :
    List (Option Str × Record) :=
  match m with
  | [] => [(k, v)]
  | (k', v') :: rest =>
    if k' = k then (k, v) :: rest else (k', v') :: dictInsert rest k v

/-- Python `to_dict(sequences)`: the dict comprehension mapping `record.id` to `record` over the input, in order. -/
def to_dict (sequences : List Record) : List (Option Str × Record) :=
  sequences.foldl (fun m r => dictInsert m r.id r) []

/-- Lookup in the association-list model of a dict. -/
def dictLookup (m : List (Option Str × Record)) (k : Option Str) : Option Record :=
  match m with
  | [] => none
  | (k', v) :: rest => if k' = k then some v else dictLookup rest k

/-- The last record in `rs` (iteration order) whose id is `i`, if any. -/
def lastWithId (rs : List Record) (i : Option Str) : Option Record :=
  match rs with
  | [] => none
  | r :: rest =>
    match lastWithId rest i with
    | some x => some x
    | none => if r.id = i then some r else none

/-- The sequence lines of a formatted record: everything after the header
line. -/
def seqLines (r : Record) (w : Nat) : List Str :=
  (pySplitLines (r.format w)).drop 1

/-- The sequence body lines of `Record.format` (without terminators). -/
def bodyLines (r : Record) (w : Nat) : List Str :=
  if w ≠ 0 then chunks w r.seq else [r.seq]

/-- The output of `Record.format` as a list of lines (without terminators):
the header line, then the body lines. -/
def formatLines (r : Record) (w : Nat) : List Str :=
  r.description :: bodyLines r w

/-- The concatenated line list of formatting a whole record list. -/
def allFormatLines (rs : List Record) (w : Nat) : List Str :=
  (rs.map (fun r => formatLines r w)).flatten

/-- Terminate every line with `'\n'` and concatenate. -/
def joinNl (L : List Str) : Str := (L.map (fun l => l ++ ['\n'])).flatten

/-- No Python whitespace anywhere in the string. -/
def spaceFree (s : Str) : Bool := s.all (fun c => !isSpace c)

/-- Well-formedness of a record for the format/re-parse round trip: the id
is present and whitespace-free, the description is present, newline-free and
equal to its own strip, and the sequence is non-empty with no whitespace and
no `'>'` characters. -/
def goodRecord (r : Record) : Bool :=
  (match r.id with
   | none => false
   | some i => spaceFree i) &&
  (match r.desc with
   | none => false
   | some d => decide (strip d = d) && decide ('\n' ∉ d)) &&
  (!r.seq.isEmpty && r.seq.all (fun c => !isSpace c && c != '>'))

/-- No newline character in the rendered header pieces or in the sequence
(so that the formatted output's line structure is the intended one). -/
def nlFree (r : Record) : Bool :=
  (optStr r.id).all (fun c => c != '\n') &&
  (match r.desc with
   | none => true
   | some d => d.all (fun c => c != '\n')) &&
  r.seq.all (fun c => c != '\n')

/-! ### Helper lemmas about stripping and line splitting -/

theorem lstrip_of_spaceFree {s : Str} (h : spaceFree s = true) : lstrip s = s := by
  cases s with
  | nil => rfl
  | cons c t =>
    have hc : isSpace c = false := by
      have := (List.all_eq_true.mp h) c (by simp)
      simpa using this
    simp [lstrip, List.dropWhile_cons, hc]

theorem spaceFree_reverse {s : Str} (h : spaceFree s = true) :
    spaceFree s.reverse = true := by
  simp only [spaceFree, List.all_eq_true] at h ⊢
  intro c hc
  exact h c (List.mem_reverse.mp hc)

theorem rstrip_of_spaceFree {s : Str} (h : spaceFree s = true) : rstrip s = s := by
  have h1 : lstrip s.reverse = s.reverse := lstrip_of_spaceFree (spaceFree_reverse h)
  have h2 : rstrip s = (lstrip s.reverse).reverse := rfl
  rw [h2, h1, List.reverse_reverse]

theorem strip_of_spaceFree {s : Str} (h : spaceFree s = true) : strip s = s := by
  rw [strip, lstrip_of_spaceFree h, rstrip_of_spaceFree h]

theorem strip_cons_of_space {c : Char} (h : isSpace c = true) (s : Str) :
    strip (c :: s) = strip s := by
  simp [strip, lstrip, List.dropWhile_cons, h]

theorem splitNl_ne_nil (s : Str) : splitNl s ≠ [] := by
  cases s with
  | nil => simp [splitNl]
  | cons c t =>
    rw [splitNl]
    split
    · simp
    · split <;> simp

theorem splitNl_append {l s : Str} (h : '\n' ∉ l) :
    splitNl (l ++ '\n' :: s) = l :: splitNl s := by
  induction l with
  | nil =>
    rw [List.nil_append, splitNl]
    cases hs : splitNl s with
    | nil => exact absurd hs (splitNl_ne_nil s)
    | cons a t => simp
  | cons c l ih =>
    have hc : c ≠ '\n' := by
      intro e
      exact h (by simp [e])
    have h' : '\n' ∉ l := fun m => h (List.mem_cons_of_mem _ m)
    rw [List.cons_append, splitNl, ih h']
    simp [hc]

theorem joinNl_cons (l : Str) (L : List Str) :
    joinNl (l :: L) = l ++ '\n' :: joinNl L := by
  simp [joinNl]

theorem joinNl_append (A B : List Str) :
    joinNl (A ++ B) = joinNl A ++ joinNl B := by
  simp [joinNl]

theorem pySplitLines_joinNl {L : List Str} (h : ∀ l ∈ L, '\n' ∉ l) :
    pySplitLines (joinNl L) = L := by
  induction L with
  | nil => rfl
  | cons l L ih =>
    have hl : '\n' ∉ l := h l (by simp)
    have hL : ∀ x ∈ L, '\n' ∉ x := fun x hx => h x (List.mem_cons_of_mem _ hx)
    specialize ih hL
    obtain ⟨a, t, ht⟩ := List.exists_cons_of_ne_nil (splitNl_ne_nil (joinNl L))
    simp only [joinNl_cons, pySplitLines, splitNl_append hl, ht,
      List.getLast?_cons_cons, List.dropLast_cons₂]
    simp only [pySplitLines, ht] at ih
    by_cases hc : (a :: t).getLast? = some ([] : Str)
    · rw [if_pos hc] at ih
      rw [if_pos hc, ih]
    · rw [if_neg hc] at ih
      rw [if_neg hc, ih]

/-! ### Helper lemmas about chunks -/

theorem chunksFuel_congr :
    ∀ (f1 f2 w : Nat) (s : Str), s.length ≤ f1 → s.length ≤ f2 →
      chunksFuel f1 w s = chunksFuel f2 w s := by
  intro f1
  induction f1 with
  | zero =>
    intro f2 w s h1 _
    have hs : s = [] := List.eq_nil_of_length_eq_zero (Nat.le_zero.mp h1)
    subst hs
    cases f2 <;> simp [chunksFuel]
  | succ f ih =>
    intro f2 w s h1 h2
    cases f2 with
    | zero =>
      have hs : s = [] := List.eq_nil_of_length_eq_zero (Nat.le_zero.mp h2)
      subst hs
      simp [chunksFuel]
    | succ f2' =>
      rw [chunksFuel, chunksFuel]
      by_cases hs : s = [] ∨ w = 0
      · rw [if_pos hs, if_pos hs]
      · rw [if_neg hs, if_neg hs]
        push_neg at hs
        have hs1 : s.length ≠ 0 := fun e => hs.1 (List.eq_nil_of_length_eq_zero e)
        have hw : w ≠ 0 := hs.2
        have hd : (s.drop w).length = s.length - w := List.length_drop _ _
        rw [ih f2' w (s.drop w) (by omega) (by omega)]

/-- The recursion equation of `chunks` (the translation of the `range` loop
of `Record.format`). -/
theorem chunks_eq (w : Nat) (s : Str) :
    chunks w s = if s = [] ∨ w = 0 then [] else s.take w :: chunks w (s.drop w) := by
  by_cases hs : s = [] ∨ w = 0
  · rw [if_pos hs]
    rcases hs with h | h
    · subst h; rfl
    · subst h
      cases s <;> simp [chunks, chunksFuel]
  · rw [if_neg hs]
    push_neg at hs
    obtain ⟨hsne, hw⟩ := hs
    obtain ⟨c, t, rfl⟩ := List.exists_cons_of_ne_nil hsne
    rw [chunks, chunks, List.length_cons, chunksFuel,
      if_neg (by simp [hw])]
    congr 1
    apply chunksFuel_congr
    · have hd : ((c :: t).drop w).length = (c :: t).length - w := List.length_drop _ _
      simp only [List.length_cons] at hd
      omega
    · exact Nat.le_refl _

theorem chunks_flatten (w : Nat) (hw : w ≠ 0) (s : Str) :
    (chunks w s).flatten = s := by
  rw [chunks_eq]
  by_cases hs : s = []
  · simp [hs]
  · rw [if_neg (by simp [hs, hw]), List.flatten_cons, chunks_flatten w hw (s.drop w)]
    exact List.take_append_drop w s
termination_by s.length
decreasing_by
  have h1 : (s.drop w).length = s.length - w := List.length_drop _ _
  have h2 : s.length ≠ 0 := fun e => hs (List.eq_nil_of_length_eq_zero e)
  omega

theorem chunks_mem {w : Nat} {s l : Str} (hw : w ≠ 0) (hl : l ∈ chunks w s) :
    l ≠ [] ∧ ∀ c ∈ l, c ∈ s := by
  rw [chunks_eq] at hl
  by_cases hs : s = []
  · rw [if_pos (Or.inl hs)] at hl
    exact absurd hl (List.not_mem_nil l)
  · rw [if_neg (by simp [hs, hw])] at hl
    rcases List.mem_cons.mp hl with rfl | hmem
    · refine ⟨?_, fun c hc => List.take_subset w s hc⟩
      simp [List.take_eq_nil_iff, hs, hw]
    · obtain ⟨h1, h2⟩ := chunks_mem hw hmem
      exact ⟨h1, fun c hc => List.drop_subset w s (h2 c hc)⟩
termination_by s.length
decreasing_by
  have h1 : (s.drop w).length = s.length - w := List.length_drop _ _
  have h2 : s.length ≠ 0 := fun e => hs (List.eq_nil_of_length_eq_zero e)
  omega

theorem chunks_ne_nil {w : Nat} {s : Str} (hw : w ≠ 0) (hs : s ≠ []) :
    chunks w s ≠ [] := by
  rw [chunks_eq, if_neg (by simp [hs, hw])]
  simp

theorem chunks_dropLast_length (w : Nat) (hw : w ≠ 0) (s : Str) :
    ∀ l ∈ (chunks w s).dropLast, l.length = w := by
  rw [chunks_eq]
  by_cases hs : s = []
  · simp [hs]
  · rw [if_neg (by simp [hs, hw])]
    by_cases hd : s.length ≤ w
    · rw [List.drop_eq_nil_of_le hd, chunks_eq]
      simp
    · push_neg at hd
      have hne : chunks w (s.drop w) ≠ [] := by
        apply chunks_ne_nil hw
        intro e
        have he := congrArg List.length e
        simp only [List.length_drop, List.length_nil] at he
        omega
      intro l hl
      rw [List.dropLast_cons_of_ne_nil hne] at hl
      rcases List.mem_cons.mp hl with rfl | h2
      · simp only [List.length_take]
        omega
      · exact chunks_dropLast_length w hw (s.drop w) l h2
termination_by s.length
decreasing_by
  have h1 : (s.drop w).length = s.length - w := List.length_drop _ _
  have h2 : s.length ≠ 0 := fun e => hs (List.eq_nil_of_length_eq_zero e)
  omega

theorem chunks_getLast_length (w : Nat) (hw : w ≠ 0) (s : Str) (hs : s ≠ []) :
    ∃ l, (chunks w s).getLast? = some l ∧
      l.length = (if s.length % w = 0 then w else s.length % w) := by
  have hs0 : s.length ≠ 0 := fun e => hs (List.eq_nil_of_length_eq_zero e)
  rw [chunks_eq, if_neg (by simp [hs, hw])]
  by_cases hd : s.length ≤ w
  · rw [List.drop_eq_nil_of_le hd, chunks_eq]
    simp only [List.getLast?_singleton, ite_true, or_true, if_pos]
    refine ⟨s.take w, rfl, ?_⟩
    have hlen : (s.take w).length = s.length := by
      simp only [List.length_take]
      omega
    rw [hlen]
    by_cases he : s.length = w
    · rw [if_pos (by simp [he]), he]
    · have hlt : s.length < w := by omega
      rw [Nat.mod_eq_of_lt hlt, if_neg hs0]
  · push_neg at hd
    have hne : s.drop w ≠ [] := by
      intro e
      have he := congrArg List.length e
      simp only [List.length_drop, List.length_nil] at he
      omega
    obtain ⟨l, hl, hlen⟩ := chunks_getLast_length w hw (s.drop w) hne
    refine ⟨l, ?_, ?_⟩
    · obtain ⟨a, t, ht⟩ := List.exists_cons_of_ne_nil (chunks_ne_nil hw hne)
      rw [ht, List.getLast?_cons_cons, ← ht, hl]
    · rw [hlen, List.length_drop, ← Nat.mod_eq_sub_mod hd.le]
termination_by s.length
decreasing_by
  have h1 : (s.drop w).length = s.length - w := List.length_drop _ _
  omega

/-! ### Helper lemmas about format, headers and parse -/

theorem format_eq_joinNl (r : Record) (w : Nat) :
    r.format w = joinNl (formatLines r w) := by
  by_cases hw : w = 0
  · subst hw
    simp [Record.format, formatLines, bodyLines, joinNl]
  · simp [Record.format, formatLines, bodyLines, joinNl, hw, List.append_assoc]

theorem goodRecord_elim {r : Record} (h : goodRecord r = true) :
    (∃ i, r.id = some i ∧ spaceFree i = true) ∧
    (∃ d, r.desc = some d ∧ strip d = d ∧ '\n' ∉ d) ∧
    r.seq ≠ [] ∧ (∀ c ∈ r.seq, isSpace c = false ∧ c ≠ '>') := by
  rw [goodRecord] at h
  simp only [Bool.and_eq_true] at h
  obtain ⟨⟨h1, h2⟩, h3, h4⟩ := h
  refine ⟨?_, ?_, ?_, ?_⟩
  · cases hid : r.id with
    | none =>
      rw [hid] at h1
      exact absurd h1 (by simp)
    | some i =>
      rw [hid] at h1
      exact ⟨i, rfl, h1⟩
  · cases hdesc : r.desc with
    | none =>
      rw [hdesc] at h2
      exact absurd h2 (by simp)
    | some d =>
      rw [hdesc] at h2
      simp only [Bool.and_eq_true, decide_eq_true_eq] at h2
      exact ⟨d, rfl, h2.1, h2.2⟩
  · intro e
    rw [e] at h3
    exact absurd h3 (by simp)
  · intro c hc
    have := (List.all_eq_true.mp h4) c hc
    simp only [Bool.and_eq_true, Bool.not_eq_true', bne_iff_ne, ne_eq] at this
    exact this

theorem description_head (r : Record) : (r.description).head? = some '>' := by
  cases hdesc : r.desc with
  | none => simp [Record.description, hdesc]
  | some d =>
    by_cases hd : d = [] <;> simp [Record.description, hdesc, hd]

theorem description_eq {r : Record} {i d : Str} (hid : r.id = some i)
    (hdesc : r.desc = some d) :
    r.description = ('>' :: i) ++ (if d = [] then [] else ' ' :: d) := by
  by_cases hd : d = [] <;> simp [Record.description, hid, hdesc, optStr, hd]

theorem headerId_line {i tail : Str} (hi : spaceFree i = true)
    (htail : tail = [] ∨ ∃ d, tail = ' ' :: d) :
    headerId (('>' :: i) ++ tail) = i := by
  have hp : ∀ c ∈ i, (fun c => !isSpace c) c = true := by
    intro c hc
    simpa using (List.all_eq_true.mp hi) c hc
  rw [headerId]
  rcases htail with rfl | ⟨d, rfl⟩
  · rw [List.append_nil, List.takeWhile_cons_of_pos (by decide),
      List.takeWhile_eq_self_iff.mpr hp]
    simp
  · rw [List.cons_append, List.takeWhile_cons_of_pos (by decide),
      List.takeWhile_append_of_pos hp, List.takeWhile_cons_of_neg (by decide)]
    simp

theorem headerDesc_line {i tail : Str} (hi : spaceFree i = true)
    (htail : tail = [] ∨ ∃ d, tail = ' ' :: d) :
    headerDesc (('>' :: i) ++ tail) = strip tail := by
  rw [headerDesc, headerId_line hi htail, List.drop_left' (by simp)]

theorem description_parse {r : Record} {i d : Str} (hid : r.id = some i)
    (hdesc : r.desc = some d) (hisp : spaceFree i = true) (hstrip : strip d = d) :
    headerId r.description = i ∧ headerDesc r.description = d := by
  have htail : (if d = [] then ([] : Str) else ' ' :: d) = [] ∨
      ∃ d', (if d = [] then ([] : Str) else ' ' :: d) = ' ' :: d' := by
    by_cases hd : d = [] <;> simp [hd]
  rw [description_eq hid hdesc]
  refine ⟨headerId_line hisp htail, ?_⟩
  rw [headerDesc_line hisp htail]
  by_cases hd : d = []
  · rw [if_pos hd, hd]
    rfl
  · rw [if_neg hd, strip_cons_of_space (by decide), hstrip]

theorem bodyLines_mem {r : Record} (h : goodRecord r = true) (w : Nat) :
    ∀ l ∈ bodyLines r w, l ≠ [] ∧ ∀ c ∈ l, c ∈ r.seq := by
  obtain ⟨-, -, hseqne, -⟩ := goodRecord_elim h
  intro l hl
  rw [bodyLines] at hl
  by_cases hw : w ≠ 0
  · rw [if_pos hw] at hl
    exact chunks_mem hw hl
  · rw [if_neg hw] at hl
    rw [List.mem_singleton] at hl
    subst hl
    exact ⟨hseqne, fun c hc => hc⟩

theorem bodyLines_nonheader {r : Record} (h : goodRecord r = true) (w : Nat) :
    ∀ l ∈ bodyLines r w, l.head? ≠ some '>' := by
  obtain ⟨-, -, -, hseq⟩ := goodRecord_elim h
  intro l hl he
  obtain ⟨-, hsub⟩ := bodyLines_mem h w l hl
  cases l with
  | nil => exact absurd he (by simp)
  | cons c t =>
    rw [List.head?_cons, Option.some_inj] at he
    subst he
    exact (hseq '>' (hsub '>' (by simp))).2 rfl

theorem bodyLines_spaceFree {r : Record} (h : goodRecord r = true) (w : Nat) :
    ∀ l ∈ bodyLines r w, spaceFree l = true := by
  obtain ⟨-, -, -, hseq⟩ := goodRecord_elim h
  intro l hl
  obtain ⟨-, hsub⟩ := bodyLines_mem h w l hl
  rw [spaceFree, List.all_eq_true]
  intro c hc
  simp [(hseq c (hsub c hc)).1]

theorem bodyLines_ne_nil {r : Record} (h : goodRecord r = true) (w : Nat) :
    bodyLines r w ≠ [] := by
  obtain ⟨-, -, hseqne, -⟩ := goodRecord_elim h
  rw [bodyLines]
  by_cases hw : w ≠ 0
  · rw [if_pos hw]
    exact chunks_ne_nil hw hseqne
  · rw [if_neg hw]
    simp

theorem bodyLines_flatten {r : Record} (w : Nat) :
    (bodyLines r w).flatten = r.seq := by
  rw [bodyLines]
  by_cases hww : w ≠ 0
  · rw [if_pos hww]
    exact chunks_flatten w hww r.seq
  · rw [if_neg hww]
    simp

theorem map_strip_eq_self {L : List Str} (h : ∀ l ∈ L, strip l = l) :
    L.map strip = L := by
  induction L with
  | nil => rfl
  | cons l L ih =>
    rw [List.map_cons, h l (by simp), ih (fun x hx => h x (List.mem_cons_of_mem _ hx))]

theorem formatLines_nlFree {r : Record} (h : goodRecord r = true) (w : Nat) :
    ∀ l ∈ formatLines r w, '\n' ∉ l := by
  obtain ⟨⟨i, hid, hisp⟩, ⟨d, hdesc, hstrip, hnl⟩, hseqne, hseq⟩ := goodRecord_elim h
  intro l hl
  rw [formatLines, List.mem_cons] at hl
  rcases hl with rfl | hbody
  · rw [description_eq hid hdesc, List.cons_append]
    intro hmem
    rw [List.mem_cons] at hmem
    rcases hmem with h1 | hmem
    · exact absurd h1 (by decide)
    · rw [List.mem_append] at hmem
      rcases hmem with h2 | h3
      · have := (List.all_eq_true.mp hisp) '\n' h2
        exact absurd this (by decide)
      · by_cases hd : d = []
        · rw [if_pos hd] at h3
          exact absurd h3 (List.not_mem_nil _)
        · rw [if_neg hd, List.mem_cons] at h3
          rcases h3 with h4 | h5
          · exact absurd h4 (by decide)
          · exact hnl h5
  · intro hmem
    obtain ⟨-, hsub⟩ := bodyLines_mem h w l hbody
    exact absurd (hseq '\n' (hsub '\n' hmem)).1 (by decide)

/-- C1: the signature table is NOT matched as full multi-byte prefixes.  The
gzip/bzip2/zip keys are tuples of single bytes and `startswith` accepts a
file beginning with ANY of them, so the lz4 magic `04 22 4d 18` is
classified `zip` (`lz4` is unreachable, contradicting the function's own
docstring), a file starting with the lone byte `8b` is classified `gz`, and
plain text starting with `h` (= `68`) is classified `bz2`. -/
theorem get_compression_type_signature_bug :
    get_compression_type [0x04, 0x22, 0x4d, 0x18] = .zip ∧
    get_compression_type [0x8b, 0x00, 0x00, 0x00] = .gz ∧
    get_compression_type [0x68, 0x65, 0x6c, 0x6c] = .bz2 ∧
    get_compression_type [0x1f, 0x8b, 0x08, 0x00] = .gz := by
  decide

/-- C2: opening a file that begins with the zip signature `50 4b 03 04` does
raise: `open_funcs` has no `'zip'` key, so the lookup is a `KeyError`, not a
returned open function. -/
theorem get_open_func_zip_keyerror :
    get_open_func [0x50, 0x4b, 0x03, 0x04] (chars "archive.zip") true true =
      .error (.keyError .zip) := by
  rfl

/-- C5: whenever the detected compression kind is zstandard or lz4 and the
corresponding decoder capability flag is false, the whole `parse` pipeline
fails with the `ImportError` whose message contains both the codec name and
the file path, and no record is produced. -/
theorem missing_codec_import_error (file : List Nat) (filename : Str)
    (hz hl : Bool) (decodedLines : List Str)
    (h : (get_compression_type file = .zstandard ∧ hz = false) ∨
         (get_compression_type file = .lz4 ∧ hl = false)) :
    parseResult file filename hz hl decodedLines =
      .error (.importError (importErrorMsg (get_compression_type file) filename)) ∧
    compressionName (get_compression_type file) <:+:
      importErrorMsg (get_compression_type file) filename ∧
    filename <:+: importErrorMsg (get_compression_type file) filename := by
  have hinf : ∀ k : Compression,
      compressionName k <:+: importErrorMsg k filename ∧
      filename <:+: importErrorMsg k filename := by
    intro k
    constructor
    · refine List.IsPrefix.isInfix ?_
      rw [importErrorMsg, List.append_assoc]
      exact List.prefix_append _ _
    · exact (List.suffix_append _ _).isInfix
  obtain ⟨hk, hcap⟩ | ⟨hk, hcap⟩ := h <;>
    subst hcap <;>
    exact ⟨by simp [parseResult, get_open_func, hk], hinf _⟩

/-- Witness for C5 at the zstandard magic with the zstandard capability
absent. -/
theorem missing_codec_import_error_witness :
    parseResult [0x28, 0xb5, 0x2f, 0xfd] (chars "reads.zst") false true [] =
      .error (.importError (importErrorMsg .zstandard (chars "reads.zst"))) := by
  have h := missing_codec_import_error [0x28, 0xb5, 0x2f, 0xfd] (chars "reads.zst")
    false true [] (Or.inl ⟨by decide, rfl⟩)
  have e : get_compression_type [0x28, 0xb5, 0x2f, 0xfd] = Compression.zstandard := by
    decide
  rw [e] at h
  exact h.1

/-- C6: the concrete scenario `">NP_055309.2 TNRC6A\nMRELEAKAT\n"` parses to
exactly one record with the stated id, sequence and description, and that
record's header-line rendering is `">NP_055309.2 TNRC6A"`. -/
theorem parse_single_record_scenario :
    parse (pySplitLines (chars ">NP_055309.2 TNRC6A\nMRELEAKAT\n")) =
      [⟨some (chars "NP_055309.2"), chars "MRELEAKAT", some (chars "TNRC6A")⟩] ∧
    Record.description
        ⟨some (chars "NP_055309.2"), chars "MRELEAKAT", some (chars "TNRC6A")⟩ =
      chars ">NP_055309.2 TNRC6A" := by
  decide

/-- Counterexample to C3 as stated: with `wrap` unset the default is 70, not
"a single line" — a 71-character sequence is emitted as two lines. -/
theorem format_default_single_line_cex :
    (pySplitLines (Record.formatDefault
        ⟨some (chars "id"), List.replicate 71 'A', none⟩)).drop 1 ≠
      [List.replicate 71 'A'] := by
  decide

/-- Counterexample to C4 as stated: a header with no content after the id
token gives a record whose `desc` is the empty string (`some []`), which is
not the absent value `none`. -/
theorem parse_bare_header_desc_cex :
    (parse [chars ">abc", chars "AAA"]).map Record.desc = [some []] ∧
    some ([] : Str) ≠ (none : Option Str) := by
  decide

/-! ### Parse state-machine lemmas -/

theorem parseGo_absorb :
    ∀ (pre : List Str), (∀ l ∈ pre, l.head? ≠ some '>') →
    ∀ (sid d : Option Str) (buf rest : List Str),
      parseGo sid d buf (pre ++ rest) = parseGo sid d (buf ++ pre.map strip) rest := by
  intro pre
  induction pre with
  | nil =>
    intro _ sid d buf rest
    simp
  | cons l pre ih =>
    intro h sid d buf rest
    have hl : l.head? ≠ some '>' := h l (by simp)
    rw [List.cons_append, parseGo, if_neg hl,
      ih (fun x hx => h x (List.mem_cons_of_mem _ hx)) sid d (buf ++ [strip l]) rest]
    simp [List.append_assoc]

theorem parseGo_header {line : Str} (hline : line.head? = some '>')
    (sid d : Option Str) (buf rest : List Str) :
    parseGo sid d buf (line :: rest) =
      (if buf = [] then [] else [⟨sid, buf.flatten, d⟩]) ++
        parseGo (some (headerId line)) (some (headerDesc line)) [] rest := by
  rw [parseGo, if_pos hline]

theorem parseGo_all_body (sid d : Option Str) (buf : List Str) (body : List Str)
    (hnh : ∀ l ∈ body, l.head? ≠ some '>') :
    parseGo sid d buf body =
      if buf ++ body.map strip = [] then []
      else [⟨sid, (buf ++ body.map strip).flatten, d⟩] := by
  have h := parseGo_absorb body hnh sid d buf []
  rw [List.append_nil] at h
  rw [h, parseGo]

theorem allFormatLines_cons (r : Record) (rs : List Record) (w : Nat) :
    allFormatLines (r :: rs) w =
      r.description :: (bodyLines r w ++ allFormatLines rs w) := by
  simp [allFormatLines, formatLines]

theorem formats_flatten (rs : List Record) (w : Nat) :
    (rs.map (fun r => r.format w)).flatten = joinNl (allFormatLines rs w) := by
  induction rs with
  | nil => rfl
  | cons r rs ih =>
    have hcons : allFormatLines (r :: rs) w = formatLines r w ++ allFormatLines rs w := by
      simp [allFormatLines]
    rw [List.map_cons, List.flatten_cons, ih, hcons, joinNl_append, format_eq_joinNl]

theorem allFormatLines_nlFree {rs : List Record} (h : ∀ r ∈ rs, goodRecord r = true)
    (w : Nat) : ∀ l ∈ allFormatLines rs w, '\n' ∉ l := by
  intro l hl
  rw [allFormatLines, List.mem_flatten] at hl
  obtain ⟨L, hL, hlL⟩ := hl
  rw [List.mem_map] at hL
  obtain ⟨r, hr, rfl⟩ := hL
  exact formatLines_nlFree (h r hr) w l hlL

theorem parseGo_roundtrip (w : Nat) :
    ∀ (rs : List Record), (∀ r ∈ rs, goodRecord r = true) →
    ∀ (i d : Str) (buf : List Str), buf ≠ [] →
      parseGo (some i) (some d) buf (allFormatLines rs w) =
        ⟨some i, buf.flatten, some d⟩ :: rs := by
  intro rs
  induction rs with
  | nil =>
    intro _ i d buf hbuf
    simp [allFormatLines, parseGo, hbuf]
  | cons r rs ih =>
    intro hgood i d buf hbuf
    have hr : goodRecord r = true := hgood r (by simp)
    obtain ⟨⟨ri, hid, hisp⟩, ⟨rd, hdesc, hstrip, hnl⟩, hseqne, hseq⟩ := goodRecord_elim hr
    rw [allFormatLines_cons, parseGo_header (description_head r), if_neg hbuf]
    obtain ⟨hhid, hhdesc⟩ := description_parse hid hdesc hisp hstrip
    rw [hhid, hhdesc,
      parseGo_absorb (bodyLines r w) (bodyLines_nonheader hr w) (some ri) (some rd) []
        (allFormatLines rs w),
      List.nil_append,
      map_strip_eq_self (fun l hl => strip_of_spaceFree (bodyLines_spaceFree hr w l hl)),
      ih (fun x hx => hgood x (List.mem_cons_of_mem _ hx)) ri rd (bodyLines r w)
        (bodyLines_ne_nil hr w),
      bodyLines_flatten w]
    have heq : (⟨some ri, r.seq, some rd⟩ : Record) = r := by
      cases r
      simp_all
    rw [heq]
    simp

/-- C7: formatting a list of well-formed records (present whitespace-free
id, present stripped newline-free description, non-empty sequence without
whitespace or `'>'`) at any wrap width and re-parsing the concatenated
output returns exactly the same records, i.e. the same
(id, sequence, description) triples. -/
theorem parse_format_roundtrip (rs : List Record) (w : Nat)
    (h : ∀ r ∈ rs, goodRecord r = true) :
    parse (pySplitLines ((rs.map (fun r => r.format w)).flatten)) = rs := by
  rw [formats_flatten, pySplitLines_joinNl (allFormatLines_nlFree h w)]
  cases rs with
  | nil => rfl
  | cons r rs =>
    have hr : goodRecord r = true := h r (by simp)
    obtain ⟨⟨ri, hid, hisp⟩, ⟨rd, hdesc, hstrip, hnl⟩, hseqne, hseq⟩ := goodRecord_elim hr
    rw [parse, allFormatLines_cons, parseGo_header (description_head r), if_pos rfl,
      List.nil_append]
    obtain ⟨hhid, hhdesc⟩ := description_parse hid hdesc hisp hstrip
    rw [hhid, hhdesc,
      parseGo_absorb (bodyLines r w) (bodyLines_nonheader hr w) (some ri) (some rd) []
        (allFormatLines rs w),
      List.nil_append,
      map_strip_eq_self (fun l hl => strip_of_spaceFree (bodyLines_spaceFree hr w l hl)),
      parseGo_roundtrip w rs (fun x hx => h x (List.mem_cons_of_mem _ hx)) ri rd
        (bodyLines r w) (bodyLines_ne_nil hr w),
      bodyLines_flatten w]
    have heq : (⟨some ri, r.seq, some rd⟩ : Record) = r := by
      cases r
      simp_all
    rw [heq]

/-- Witness for C7 on a concrete two-record list at wrap width 3. -/
theorem parse_format_roundtrip_witness :
    parse (pySplitLines ((([⟨some (chars "a"), chars "MRELE", some (chars "x y")⟩,
        ⟨some (chars "b2"), chars "KT", some []⟩] : List Record).map
          (fun r => r.format 3)).flatten)) =
      [⟨some (chars "a"), chars "MRELE", some (chars "x y")⟩,
       ⟨some (chars "b2"), chars "KT", some []⟩] :=
  parse_format_roundtrip _ 3 (by decide)

/-- C9: lines before the first header accumulate in the buffer with no
current id; at the first header a record with an absent (`none`) id is
emitted whose sequence is the concatenation of those lines, each stripped. -/
theorem parse_leading_lines_null_id (pre : List Str) (hdr : Str) (rest : List Str)
    (hpre : pre ≠ []) (hnh : ∀ l ∈ pre, l.head? ≠ some '>')
    (hh : hdr.head? = some '>') :
    parse (pre ++ hdr :: rest) =
      ⟨none, (pre.map strip).flatten, none⟩ ::
        parseGo (some (headerId hdr)) (some (headerDesc hdr)) [] rest := by
  rw [parse, parseGo_absorb pre hnh none none [] (hdr :: rest), List.nil_append,
    parseGo_header hh, if_neg (by simpa using hpre)]
  simp

/-- Witness for C9: one leading sequence line before a header. -/
theorem parse_leading_lines_null_id_witness :
    parse ([chars "AAA"] ++ chars ">x" :: []) =
      ⟨none, ([chars "AAA"].map strip).flatten, none⟩ ::
        parseGo (some (headerId (chars ">x"))) (some (headerDesc (chars ">x"))) [] [] :=
  parse_leading_lines_null_id [chars "AAA"] (chars ">x") [] (by decide) (by decide)
    (by decide)

/-- C4 (amended): a header line with no content after the id token makes the
parser record the description as the EMPTY string (`some []`), not as the
absent value `none`; the record later emitted for that header carries
`desc = some []`. -/
theorem parse_bare_header_desc_empty (line : Str) (body : List Str)
    (hline : line.head? = some '>') (hdesc : headerDesc line = [])
    (hbody : body ≠ []) (hnh : ∀ l ∈ body, l.head? ≠ some '>') :
    parse (line :: body) =
      [⟨some (headerId line), (body.map strip).flatten, some []⟩] := by
  rw [parse, parseGo_header hline, if_pos rfl, List.nil_append, hdesc,
    parseGo_all_body (some (headerId line)) (some []) [] body hnh, List.nil_append]
  rw [if_neg (by simpa using hbody)]

/-- Witness for C4's amended statement at a concrete bare header. -/
theorem parse_bare_header_desc_empty_witness :
    parse [chars ">abc", chars "AAA"] =
      [⟨some (headerId (chars ">abc")), ([chars "AAA"].map strip).flatten, some []⟩] :=
  parse_bare_header_desc_empty (chars ">abc") [chars "AAA"] (by decide) (by decide)
    (by decide) (by decide)

/-! ### Line shape of formatted output -/

theorem description_shape (r : Record) :
    r.description = ('>' :: optStr r.id) ++
      (match r.desc with
       | some d => if d = [] then [] else ' ' :: d
       | none => []) := by
  cases hdesc : r.desc with
  | none => simp [Record.description, hdesc]
  | some d => by_cases hd : d = [] <;> simp [Record.description, hdesc, hd]

theorem description_nlFree {r : Record} (h : nlFree r = true) : '\n' ∉ r.description := by
  rw [nlFree] at h
  simp only [Bool.and_eq_true] at h
  obtain ⟨⟨h1, h2⟩, -⟩ := h
  have hid : '\n' ∉ optStr r.id := by
    intro hm
    exact absurd ((List.all_eq_true.mp h1) '\n' hm) (by decide)
  cases hdesc : r.desc with
  | none =>
    rw [description_shape, hdesc]
    intro hm
    rw [List.cons_append, List.mem_cons] at hm
    rcases hm with h3 | hm
    · exact absurd h3 (by decide)
    · rw [List.mem_append] at hm
      rcases hm with h4 | h5
      · exact hid h4
      · exact absurd h5 (List.not_mem_nil _)
  | some d =>
    rw [hdesc] at h2
    have hd : '\n' ∉ d := by
      intro hm
      exact absurd ((List.all_eq_true.mp h2) '\n' hm) (by decide)
    rw [description_shape, hdesc]
    intro hm
    rw [List.cons_append, List.mem_cons] at hm
    rcases hm with h3 | hm
    · exact absurd h3 (by decide)
    · rw [List.mem_append] at hm
      rcases hm with h4 | h5
      · exact hid h4
      · replace h5 : '\n' ∈ (if d = [] then ([] : Str) else ' ' :: d) := h5
        by_cases hde : d = []
        · rw [if_pos hde] at h5
          exact absurd h5 (List.not_mem_nil _)
        · rw [if_neg hde, List.mem_cons] at h5
          rcases h5 with h6 | h7
          · exact absurd h6 (by decide)
          · exact hd h7

theorem bodyLines_nlFree {r : Record} (h : nlFree r = true) (w : Nat) :
    ∀ l ∈ bodyLines r w, '\n' ∉ l := by
  rw [nlFree] at h
  simp only [Bool.and_eq_true] at h
  obtain ⟨-, h3⟩ := h
  have hseq : '\n' ∉ r.seq := fun hm =>
    absurd ((List.all_eq_true.mp h3) '\n' hm) (by decide)
  intro l hl hm
  rw [bodyLines] at hl
  by_cases hw : w ≠ 0
  · rw [if_pos hw] at hl
    obtain ⟨-, hsub⟩ := chunks_mem hw hl
    exact hseq (hsub '\n' hm)
  · rw [if_neg hw, List.mem_singleton] at hl
    subst hl
    exact hseq hm

theorem seqLines_eq_bodyLines {r : Record} (h : nlFree r = true) (w : Nat) :
    seqLines r w = bodyLines r w := by
  have hlines : ∀ l ∈ formatLines r w, '\n' ∉ l := by
    intro l hl
    rw [formatLines, List.mem_cons] at hl
    rcases hl with rfl | hb
    · exact description_nlFree h
    · exact bodyLines_nlFree h w l hb
  rw [seqLines, format_eq_joinNl, pySplitLines_joinNl hlines, formatLines]
  rfl

/-- C3 (amended): for `wrap = N > 0` every emitted sequence line has length
exactly `N` except the last, whose length is `len % N` (or `N` when `N`
divides `len`); `wrap = 0` emits the whole sequence as one line; but an
UNSET wrap means the default `wrap = 70` (so the sequence is wrapped at 70),
not a single line. -/
theorem format_wrap_shape (r : Record) (w : Nat) (h : nlFree r = true) :
    (w ≠ 0 →
      (∀ l ∈ (seqLines r w).dropLast, l.length = w) ∧
      (r.seq ≠ [] → ∃ l, (seqLines r w).getLast? = some l ∧
        l.length = (if r.seq.length % w = 0 then w else r.seq.length % w))) ∧
    (w = 0 → seqLines r 0 = [r.seq]) ∧
    r.formatDefault = r.format 70 := by
  refine ⟨?_, ?_, rfl⟩
  · intro hw
    rw [seqLines_eq_bodyLines h w, bodyLines, if_pos hw]
    exact ⟨chunks_dropLast_length w hw r.seq,
      fun hs => chunks_getLast_length w hw r.seq hs⟩
  · intro hw0
    rw [seqLines_eq_bodyLines h 0, bodyLines]
    simp

/-- Witness for C3's amended statement at a concrete record and wrap 2. -/
theorem format_wrap_shape_witness :
    (∀ l ∈ (seqLines ⟨some (chars "id"), chars "ABCDE", some (chars "d")⟩ 2).dropLast,
      l.length = 2) ∧
    (∃ l, (seqLines ⟨some (chars "id"), chars "ABCDE", some (chars "d")⟩ 2).getLast? =
        some l ∧
      l.length = (if (chars "ABCDE").length % 2 = 0 then 2
        else (chars "ABCDE").length % 2)) := by
  have h := (format_wrap_shape ⟨some (chars "id"), chars "ABCDE", some (chars "d")⟩ 2
    (by decide)).1 (by decide)
  exact ⟨h.1, h.2 (by decide)⟩

/-! ### Dictionary lemmas for to_dict -/

theorem dictLookup_insert (m : List (Option Str × Record)) (k : Option Str) (v : Record)
    (j : Option Str) :
    dictLookup (dictInsert m k v) j = if k = j then some v else dictLookup m j := by
  induction m with
  | nil => simp [dictInsert, dictLookup]
  | cons e m ih =>
    obtain ⟨a, b⟩ := e
    rw [dictInsert]
    by_cases hk : a = k
    · subst hk
      rw [if_pos rfl]
      by_cases hj : a = j <;> simp [dictLookup, hj]
    · rw [if_neg hk]
      by_cases hj : a = j
      · have hkj : k ≠ j := fun e => hk (hj.trans e.symm)
        simp [dictLookup, hj, hkj]
      · simp [dictLookup, hj, ih]

theorem keys_insert_mem (m : List (Option Str × Record)) (k : Option Str) (v : Record)
    (j : Option Str) :
    j ∈ (dictInsert m k v).map Prod.fst ↔ j ∈ m.map Prod.fst ∨ j = k := by
  induction m with
  | nil => simp [dictInsert]
  | cons e m ih =>
    obtain ⟨a, b⟩ := e
    rw [dictInsert]
    by_cases hk : a = k
    · subst hk
      rw [if_pos rfl]
      simp only [List.map_cons, List.mem_cons]
      tauto
    · rw [if_neg hk]
      simp only [List.map_cons, List.mem_cons, ih]
      tauto

theorem keys_insert_nodup {m : List (Option Str × Record)}
    (h : (m.map Prod.fst).Nodup) (k : Option Str) (v : Record) :
    ((dictInsert m k v).map Prod.fst).Nodup := by
  induction m with
  | nil => simp [dictInsert]
  | cons e m ih =>
    obtain ⟨a, b⟩ := e
    rw [List.map_cons, List.nodup_cons] at h
    obtain ⟨ha, hm⟩ := h
    rw [dictInsert]
    by_cases hk : a = k
    · subst hk
      rw [if_pos rfl, List.map_cons, List.nodup_cons]
      exact ⟨ha, hm⟩
    · rw [if_neg hk, List.map_cons, List.nodup_cons]
      refine ⟨?_, ih hm⟩
      intro hmem
      rw [keys_insert_mem] at hmem
      rcases hmem with h1 | h2
      · exact ha h1
      · exact hk h2

theorem keys_foldl_mem :
    ∀ (rs : List Record) (m : List (Option Str × Record)) (j : Option Str),
      (j ∈ (rs.foldl (fun m r => dictInsert m r.id r) m).map Prod.fst) ↔
        (j ∈ m.map Prod.fst ∨ j ∈ rs.map Record.id) := by
  intro rs
  induction rs with
  | nil =>
    intro m j
    simp only [List.foldl_nil, List.map_nil, List.not_mem_nil, or_false]
  | cons r rs ih =>
    intro m j
    rw [List.foldl_cons, ih, keys_insert_mem]
    simp only [List.map_cons, List.mem_cons]
    tauto

theorem keys_foldl_nodup :
    ∀ (rs : List Record) (m : List (Option Str × Record)),
      (m.map Prod.fst).Nodup →
      ((rs.foldl (fun m r => dictInsert m r.id r) m).map Prod.fst).Nodup := by
  intro rs
  induction rs with
  | nil => exact fun m h => h
  | cons r rs ih =>
    intro m h
    rw [List.foldl_cons]
    exact ih _ (keys_insert_nodup h r.id r)

theorem to_dict_loop_lookup :
    ∀ (rs : List Record) (m : List (Option Str × Record)) (j : Option Str),
      dictLookup (rs.foldl (fun m r => dictInsert m r.id r) m) j =
        (match lastWithId rs j with
         | some x => some x
         | none => dictLookup m j) := by
  intro rs
  induction rs with
  | nil =>
    intro m j
    rfl
  | cons r rs ih =>
    intro m j
    rw [List.foldl_cons, ih, lastWithId]
    cases hlast : lastWithId rs j with
    | some x => rfl
    | none =>
      by_cases hr : r.id = j <;> simp [dictLookup_insert, hr]

theorem to_dict_lookup_last (rs : List Record) (j : Option Str) :
    dictLookup (to_dict rs) j = lastWithId rs j := by
  rw [to_dict, to_dict_loop_lookup]
  cases hlast : lastWithId rs j <;> rfl

theorem to_dict_length (rs : List Record) :
    (to_dict rs).length = ((rs.map Record.id).dedup).length := by
  have h1 : ((to_dict rs).map Prod.fst).Nodup := by
    rw [to_dict]
    exact keys_foldl_nodup rs [] (by simp)
  have h2 : ∀ j, j ∈ (to_dict rs).map Prod.fst ↔ j ∈ (rs.map Record.id).dedup := by
    intro j
    rw [to_dict, keys_foldl_mem, List.mem_dedup]
    simp
  have hperm : List.Perm ((to_dict rs).map Prod.fst) ((rs.map Record.id).dedup) :=
    (List.perm_ext_iff_of_nodup h1 (List.nodup_dedup _)).mpr h2
  have hlen := hperm.length_eq
  rw [List.length_map] at hlen
  exact hlen

/-- C8: `to_dict` maps each id to the LAST record with that id in iteration
order (a later record overwrites an earlier one with the same id), and the
size of the dictionary is the number of distinct ids in the input. -/
theorem to_dict_last_wins_size (rs : List Record) :
    (∀ j, dictLookup (to_dict rs) j = lastWithId rs j) ∧
    (to_dict rs).length = ((rs.map Record.id).dedup).length :=
  ⟨fun j => to_dict_lookup_last rs j, to_dict_length rs⟩

/-! ### Record.__str__ lemmas -/

theorem head?_dropWhile_false {p : Char → Bool} {l : Str} {a : Char}
    (h : (l.dropWhile p).head? = some a) : p a = false := by
  induction l with
  | nil => simp [List.dropWhile] at h
  | cons c t ih =>
    rw [List.dropWhile_cons] at h
    by_cases hc : p c
    · rw [if_pos hc] at h
      exact ih h
    · rw [if_neg hc] at h
      rw [List.head?_cons, Option.some_inj] at h
      subst h
      cases hpc : p c
      · rfl
      · exact absurd hpc hc

theorem rstrip_getLast_not_space {s : Str} {c : Char}
    (h : (rstrip s).getLast? = some c) : isSpace c = false := by
  rw [rstrip, List.getLast?_reverse] at h
  exact head?_dropWhile_false h

theorem rstrip_ne_nil_of_mem {s : Str} {c : Char} (hc : c ∈ s)
    (hsp : isSpace c = false) : rstrip s ≠ [] := by
  rw [rstrip]
  intro e
  rw [List.reverse_eq_nil_iff, List.dropWhile_eq_nil_iff] at e
  exact absurd (e c (List.mem_reverse.mpr hc)) (by simp [hsp])

theorem gt_mem_format (r : Record) (w : Nat) : '>' ∈ r.format w := by
  have h1 : '>' ∈ r.description := by
    rw [description_shape]
    simp
  rw [Record.format]
  simp [h1]

/-- C10: `str(record)` is `format(record, wrap=70)` with all trailing
whitespace removed: the default rendering wraps the sequence at width 70,
is never empty, and its last character is not whitespace (in particular it
does not end in a newline). -/
theorem str_eq_rstrip_format70 (r : Record) :
    r.str = rstrip (r.format 70) ∧
    r.str ≠ [] ∧
    (r.str).getLast?.all (fun c => !isSpace c) = true := by
  refine ⟨rfl, ?_, ?_⟩
  · exact rstrip_ne_nil_of_mem (gt_mem_format r 70) (by decide)
  · cases hc : (r.str).getLast? with
    | none => rfl
    | some c =>
      have hc' : (rstrip (r.format 70)).getLast? = some c := hc
      have hsp := rstrip_getLast_not_space hc'
      simp [Option.all, hsp]

end Fasta
